import Mathlib

/-!
Verification of the ciphermask PII pipeline core against its specification.

The development shallowly embeds the pure core of the repository:

* `app/services/pii_detector.py` — the candidate-span detectors and the
  merge / conflict resolver `_resolve_overlaps`;
* `app/services/redaction_engine.py` — `redact`;
* `app/services/risk_engine.py` — `compute_risk_score`, `compute_safety_score`;
* `app/services/compliance_engine.py` — `evaluate`;
* `app/config.py` — the static weight and threshold tables.

Python strings are modelled as `List Char` (Python indexes strings by code
point), machine integers as `Int`/`Nat` (Python ints are unbounded), dicts of
static tables as association lists, and the external engines (the `re` regex
engine and the spaCy NLP model, both outside the repository) as parameters
supplying their match/entity lists; every piece of control flow of the
repository's own code is translated directly.
-/

namespace Ciphermask

/-- Candidate span record, mirroring the entity dicts built by the detectors in
`pii_detector.py` (`value`, `label`, `detection_method`, `start`, `end`; the
Python key `end` is spelled `endPos` because `end` is a Lean keyword). -/
structure Span where
  value : String
  label : String
  detection_method : String
  start : Nat
  endPos : Nat
  deriving DecidableEq, Repr

/-- Labels of `_REGEX_PATTERNS` in declaration order (`pii_detector.py`). -/
def REGEX_PATTERN_LABELS : List String :=
  ["CREDIT_CARD", "AADHAAR", "PHONE", "EMAIL", "PAN", "IFSC"]

/-- The dict `label_priority = {label: i for i, (label, _) in enumerate(_REGEX_PATTERNS)}`
with lookup `label_priority.get(e["label"], 99)` from `_resolve_overlaps`. -/
def label_priority (label : String) : Nat :=
  match REGEX_PATTERN_LABELS.findIdx? (fun l => l == label) with
  | some i => i
  | none => 99

/-- The dict `method_priority = {"regex": 0, "rule": 1, "nlp": 2}` with lookup
`method_priority.get(e["detection_method"], 99)` from `_resolve_overlaps`. -/
def method_priority (m : String) : Nat :=
  if m = "regex" then 0 else if m = "rule" then 1 else if m = "nlp" then 2 else 99

/-- The full Python sort key of `_resolve_overlaps`:
`(sort_key(e), e["start"]) = ((method_priority, label_priority), start)`. -/
def spanKey (e : Span) : Nat × Nat × Nat :=
  (method_priority e.detection_method, label_priority e.label, e.start)

/-- Lexicographic order on the nested Python tuple `((mp, lp), start)`. -/
def keyLE (x y : Nat × Nat × Nat) : Prop :=
  x.1 < y.1 ∨ (x.1 = y.1 ∧ (x.2.1 < y.2.1 ∨ (x.2.1 = y.2.1 ∧ x.2.2 ≤ y.2.2)))

instance (x y : Nat × Nat × Nat) : Decidable (keyLE x y) := by
  unfold keyLE; infer_instance

/-- Boolean comparison used to model `entities.sort(key=lambda e: (sort_key(e), e["start"]))`. -/
def spanLE (a b : Span) : Bool := decide (keyLE (spanKey a) (spanKey b))

/-- The in-place stable sort `entities.sort(key=lambda e: (sort_key(e), e["start"]))`
of `_resolve_overlaps` (Python `list.sort` is a stable sort; so is `List.mergeSort`). -/
def sortSpans (l : List Span) : List Span := l.mergeSort spanLE

/-- Overlap of two half-open ranges as used throughout the code and spec:
`s1 < e2 and e1 > s2`. -/
def overlaps (a b : Span) : Prop := a.start < b.endPos ∧ a.endPos > b.start

instance (a b : Span) : Decidable (overlaps a b) := by
  unfold overlaps; infer_instance

/-- The greedy acceptance loop of `_resolve_overlaps`: walk the sorted spans,
keep a span iff it overlaps no already-occupied `(start, end)` range
(`any(s < oe and e > os for os, oe in occupied)`). -/
def greedyKeep : List Span → List (Nat × Nat) → List Span
  | [], _ => []
  | ent :: rest, occupied =>
    if occupied.any (fun r => decide (ent.start < r.2) && decide (ent.endPos > r.1)) then
      greedyKeep rest occupied
    else
      ent :: greedyKeep rest (occupied ++ [(ent.start, ent.endPos)])

/-- The deduplication loop of `_resolve_overlaps`: drop a span whose
`(start, end, label)` triple was already seen (the Python `seen` set is
modelled as a list with membership). -/
def dedupeSpans : List Span → List (Nat × Nat × String) → List Span
  | [], _ => []
  | ent :: rest, seen =>
    if (ent.start, ent.endPos, ent.label) ∈ seen then
      dedupeSpans rest seen
    else
      ent :: dedupeSpans rest ((ent.start, ent.endPos, ent.label) :: seen)

/-- Boolean comparison for the final `deduped.sort(key=lambda e: e["start"])`. -/
def startLE (a b : Span) : Bool := decide (a.start ≤ b.start)

/-- `_resolve_overlaps` from `pii_detector.py`: early return on the empty list,
stable sort by `((method_priority, label_priority), start)`, greedy
non-overlap acceptance, `(start, end, label)` deduplication, and a final
stable sort by `start`. -/
def resolve_overlaps (entities : List Span) : List Span :=
  if entities.isEmpty then []
  else (dedupeSpans (greedyKeep (sortSpans entities) []) []).mergeSort startLE

/-- `_resolve_overlaps` with the deduplication step removed (for the claim that
the deduplication is a no-op). -/
def resolve_overlaps_nodedup (entities : List Span) : List Span :=
  if entities.isEmpty then []
  else (greedyKeep (sortSpans entities) []).mergeSort startLE

/-! ### Pattern detector (`_detect_regex`)

The `re` engine is external; a detector run is modelled by the per-label match
lists the engine yields (`pattern.finditer(text)`), while the validation and
emission logic of `_detect_regex` is translated directly. -/

/-- One `re.Match`: `match.group()`, `match.start()`, `match.end()`. -/
structure RegexMatch where
  value : String
  start : Nat
  endPos : Nat
  deriving DecidableEq, Repr

/-- `re.sub(r"\D", "", value)`: the digit characters of the matched value. -/
def digitsOf (s : String) : List Char := s.toList.filter Char.isDigit

/-- The PHONE normalization of `_detect_regex`: strip non-digits, and drop the
leading country code `"91"` when the digit string is 12 long
(`digits.startswith("91") and len(digits) == 12`). -/
def phoneDigits (s : String) : List Char :=
  let digits := digitsOf s
  if digits.take 2 = ['9', '1'] ∧ digits.length = 12 then digits.drop 2 else digits

/-- The per-match body of `_detect_regex`: digit-count validation followed by
emission of an entity dict with `detection_method = "regex"`. -/
def validRegexSpan? (label : String) (m : RegexMatch) : Option Span :=
  let digits := digitsOf m.value
  if label = "CREDIT_CARD" ∧ digits.length ≠ 16 then none
  else if label = "AADHAAR" ∧ digits.length ≠ 12 then none
  else if label = "PHONE" then
    if (phoneDigits m.value).length ≠ 10 then none
    else some ⟨m.value, label, "regex", m.start, m.endPos⟩
  else some ⟨m.value, label, "regex", m.start, m.endPos⟩

/-- `_detect_regex`, parameterized by the `(label, finditer results)` pairs the
regex engine produces for the text. -/
def detect_regex_from (ms : List (String × List RegexMatch)) : List Span :=
  ms.flatMap (fun lm => lm.2.filterMap (validRegexSpan? lm.1))

/-! ### Fixed vocabularies from `pii_detector.py` -/

/-- `_STRUCTURAL_KEYWORDS` (a frozenset, modelled as a list with membership). -/
def STRUCTURAL_KEYWORDS : List String :=
  ["credit card", "credit", "card",
   "emergency contact", "emergency",
   "phone", "phone number", "mobile", "contact",
   "name", "full name", "first name", "last name",
   "email", "email address", "e-mail",
   "aadhaar", "aadhar", "aadhaar number",
   "pan", "pan number", "pan card",
   "address", "dob", "date of birth",
   "gender", "age", "occupation",
   "father", "mother", "spouse", "guardian",
   "ifsc", "account", "bank"]

/-- `_STOP_WORDS` (a frozenset, modelled as a list with membership). -/
def STOP_WORDS : List String :=
  ["a", "an", "the", "and", "or", "but", "nor", "so", "yet",
   "in", "on", "at", "to", "for", "of", "with", "from", "by", "as",
   "is", "am", "are", "was", "were", "be", "been", "being",
   "have", "has", "had", "do", "does", "did",
   "will", "would", "shall", "should", "can", "could", "may", "might", "must",
   "i", "me", "my", "mine", "we", "us", "our", "ours",
   "you", "your", "yours", "he", "him", "his", "she", "her", "hers",
   "it", "its", "they", "them", "their", "theirs",
   "this", "that", "these", "those",
   "who", "whom", "whose", "which", "what", "where", "when", "how", "why",
   "not", "no", "if", "then", "else", "than",
   "here", "there", "now", "just", "also", "very", "really",
   "everyone", "everybody", "guys", "team", "sir", "madam",
   "dear", "friend", "friends", "folks", "mate", "world",
   "fine", "good", "great", "ok", "okay", "sorry", "happy",
   "glad", "sure", "ready", "done", "well", "all", "back",
   "going", "looking", "trying", "working", "writing", "calling",
   "sending", "using", "new", "old", "need", "want", "know",
   "about", "into", "over", "after", "before", "between",
   "through", "during", "without", "under", "above"]

/-- `_BUSINESS_SUFFIXES` (a frozenset, modelled as a list with membership). -/
def BUSINESS_SUFFIXES : List String :=
  ["ltd", "pvt", "inc", "corp", "technologies", "solutions",
   "systems", "private", "limited", "llc", "llp", "co", "company",
   "services", "enterprises", "group", "industries", "consulting",
   "foundation", "institute", "association", "corporation"]

/-- Python `str.strip()` (leading/trailing whitespace removal), implemented
structurally over the character list. -/
def pyStrip (l : List Char) : List Char :=
  ((l.dropWhile Char.isWhitespace).reverse.dropWhile Char.isWhitespace).reverse

/-- Python `str.lower()` (ASCII case folding suffices for the fixed
vocabularies of this code). -/
def pyLower (l : List Char) : List Char := l.map Char.toLower

/-- Python `str.split()`: whitespace-separated words, empty runs dropped. -/
def pySplitWords (l : List Char) : List (List Char) :=
  (l.splitOnP (fun c => c.isWhitespace)).filter (fun w => !w.isEmpty)

/-- `_is_structural`: normalize by strip + lowercase, then exact membership in
the keyword set, or substring containment of any multi-word keyword
(`len(kw.split()) > 1 and kw in normalized`). -/
def is_structural (value : String) : Bool :=
  let normalized := String.mk (pyLower (pyStrip value.toList))
  if normalized ∈ STRUCTURAL_KEYWORDS then true
  else STRUCTURAL_KEYWORDS.any (fun kw =>
    decide ((pySplitWords kw.toList).length > 1) &&
    decide (List.IsInfix kw.toList normalized.toList))

/-! ### Rule-based name extractor (`_extract_names_from_pattern`)

The intro-phrase regex and the word regex `_NAME_WORD_RE` belong to the
external `re` engine; a run is modelled by the end offsets of the intro
matches and by the stream of word matches `finditer` yields from a given
offset, while the word-collection loop is translated directly. -/

/-- One `_NAME_WORD_RE` match: `m.group()`, `m.start()`, `m.end()`. -/
structure WordMatch where
  group : String
  start : Nat
  endPos : Nat
  deriving DecidableEq, Repr

/-- The inner loop of `_extract_names_from_pattern`: consume word matches while
the gap from the previous position is all spaces and the word is neither a
stop word nor structural, stopping once `max_words` words are collected. -/
def collectWords (text : List Char) (max_words : Nat) :
    List WordMatch → Nat → List WordMatch → List WordMatch
  | [], _, words => words
  | m :: rest, search_pos, words =>
    if m.start ≠ search_pos ∧
        ¬ ((text.drop search_pos).take (m.start - search_pos)).all (fun c => c = ' ') then
      words
    else if String.mk (pyLower m.group.toList) ∈ STOP_WORDS then words
    else if is_structural m.group then words
    else
      let words2 := words ++ [m]
      if max_words ≤ words2.length then words2
      else collectWords text max_words rest m.endPos words2

/-- `_extract_names_from_pattern`: for each intro match (given by its end
offset), collect words starting there, and emit a PERSON span with
`detection_method = "rule"` spanning the first to last collected word, unless
the candidate text is structural. -/
def extract_names_from_pattern (text : List Char) (introEnds : List Nat)
    (wordMatchesFrom : Nat → List WordMatch) (max_words : Nat) : List Span :=
  introEnds.filterMap (fun introEnd =>
    let words := collectWords text max_words (wordMatchesFrom introEnd) introEnd []
    match words.head?, words.getLast? with
    | some w0, some wl =>
      let candidate := (text.drop w0.start).take (wl.endPos - w0.start)
      if is_structural (String.mk candidate) then none
      else some ⟨String.mk candidate, "PERSON", "rule", w0.start, wl.endPos⟩
    | _, _ => none)

/-! ### Contextual (NLP) detector (`_detect_nlp`)

The spaCy model is external; a run is modelled by the entity list it yields
(each entity carrying its label, text, character range and tokens), while the
filtering/cleanup of `_detect_nlp` is translated directly. -/

/-- A spaCy token: `t.text` and `t.idx` (`len(t)` is the length of its text). -/
structure NlpToken where
  text : String
  idx : Nat
  deriving DecidableEq, Repr

/-- A spaCy entity: `ent.label_`, `ent.text`, `ent.start_char`, `ent.end_char`,
`list(ent)`. -/
structure NlpEnt where
  label_ : String
  text : String
  start_char : Nat
  end_char : Nat
  tokens : List NlpToken
  deriving DecidableEq, Repr

/-- `SPACY_LABELS` from `config.py` (a set, modelled as a list with membership). -/
def SPACY_LABELS : List String := ["PERSON", "ORG", "GPE"]

/-- The PERSON token-cleaning loop of `_detect_nlp`: skip empty-after-strip
tokens, stop at a stop word or at a token that (after removing apostrophes and
hyphens) is not purely alphabetic of length at least 2. -/
def cleanPersonTokens : List NlpToken → List NlpToken
  | [] => []
  | t :: ts =>
    let word := String.mk (pyStrip t.text.toList)
    if word = "" then cleanPersonTokens ts
    else if String.mk (pyLower word.toList) ∈ STOP_WORDS then []
    else
      let bare := word.toList.filter (fun c => c ≠ Char.ofNat 39 ∧ c ≠ '-')
      if ¬ (bare ≠ [] ∧ bare.all Char.isAlpha) ∨ bare.length < 2 then []
      else t :: cleanPersonTokens ts

/-- `_detect_nlp`, parameterized by the entity list the spaCy model yields:
label filtering, structural filtering, PERSON re-trimming, and emission with
`detection_method = "nlp"`. -/
def detect_nlp_from (text : List Char) (ents : List NlpEnt) : List Span :=
  ents.filterMap (fun ent =>
    if ent.label_ ∉ SPACY_LABELS then none
    else if (ent.label_ = "PERSON" ∨ ent.label_ = "ORG") ∧
        is_structural (String.mk (pyStrip ent.text.toList)) then
      none
    else if ent.label_ = "PERSON" then
      let clean := cleanPersonTokens ent.tokens
      if clean = [] ∨ clean.length > 4 then none
      else
        match clean.head?, clean.getLast? with
        | some c0, some cl =>
          let start := c0.idx
          let stop := cl.idx + cl.text.length
          let value := (text.drop start).take (stop - start)
          if is_structural (String.mk value) then none
          else some ⟨String.mk value, "PERSON", "nlp", start, stop⟩
        | _, _ => none
    else some ⟨String.mk (pyStrip ent.text.toList), ent.label_, "nlp",
      ent.start_char, ent.end_char⟩)

/-! ### Redaction engine (`redaction_engine.py`) -/

/-- The placeholder `f"[{ent['label']}]"`. -/
def placeholder (label : String) : List Char := '[' :: (label.toList ++ [']'])

/-- One replacement step: `result[:start] + placeholder + result[end:]`. -/
def applyRedaction (result : List Char) (ent : Span) : List Char :=
  result.take ent.start ++ placeholder ent.label ++ result.drop ent.endPos

/-- Boolean comparison modelling `sorted(entities, key=lambda e: e["start"], reverse=True)`
(Python `sorted` with `reverse=True` is a stable descending sort). -/
def startGE (a b : Span) : Bool := decide (b.start ≤ a.start)

/-- `redact` from `redaction_engine.py`: sort the entities by `start`
descending and fold the slice-replacement over them. -/
def redact (text : List Char) (entities : List Span) : List Char :=
  (entities.mergeSort startGE).foldl applyRedaction text

/-- The specification's description of redacted text: walking the entities in
ascending `start` order, copy the original text between entities unchanged and
replace each `[start, end)` range by its placeholder. -/
def spliceFrom (text : List Char) : Nat → List Span → List Char
  | pos, [] => text.drop pos
  | pos, e :: rest =>
    (text.drop pos).take (e.start - pos) ++ placeholder e.label ++
      spliceFrom text e.endPos rest

/-! ### Risk engine (`risk_engine.py`) and config tables -/

/-- `WEIGHTS` from `config.py`. -/
def WEIGHTS : List (String × Int) :=
  [("PHONE", 5), ("EMAIL", 3), ("PERSON", 2), ("ORG", 1), ("GPE", 1),
   ("AADHAAR", 10), ("PAN", 8), ("CREDIT_CARD", 10), ("IFSC", 6)]

/-- `WEIGHTS.get(label, 0)`. -/
def weightOf (label : String) : Int :=
  match WEIGHTS.find? (fun p => p.1 == label) with
  | some p => p.2
  | none => 0

/-- The distinct elements of a list in first-occurrence order (the key order of
a Python `collections.Counter`, which is an insertion-ordered dict). -/
def distinctLabels : List String → List String
  | [] => []
  | l :: ls => l :: distinctLabels (ls.filter (fun x => !(x == l)))
termination_by ls => ls.length
decreasing_by
  exact Nat.lt_succ_of_le (List.length_filter_le _ _)

/-- `Counter(labels).items()`: each distinct label paired with its number of
occurrences, in first-occurrence order (the documented behaviour of the
external `collections.Counter`). -/
def counterItems (labels : List String) : List (String × Nat) :=
  (distinctLabels labels).map (fun l => (l, labels.count l))

/-- `compute_risk_score` from `risk_engine.py`:
`sum(WEIGHTS.get(label, 0) * count for label, count in counts.items())`. -/
def compute_risk_score (entities : List Span) : Int :=
  ((counterItems (entities.map (fun e => e.label))).map
    (fun p => weightOf p.1 * (p.2 : Int))).sum

/-- `compute_safety_score` from `risk_engine.py`: `max(0, 100 - risk_score)`. -/
def compute_safety_score (risk_score : Int) : Int := max 0 (100 - risk_score)

/-! ### Compliance engine (`compliance_engine.py`) -/

/-- `COMPLIANCE_THRESHOLDS` from `config.py`. -/
def COMPLIANCE_THRESHOLDS : List (Int × String) :=
  [(80, "CRITICAL - NOT SAFE"),
   (50, "HIGH RISK - REVIEW REQUIRED"),
   (25, "MODERATE RISK - REVIEW"),
   (0, "SAFE FOR PUBLIC RELEASE")]

/-- `evaluate` from `compliance_engine.py`: return the status of the first
threshold entry with `risk_score > threshold`, falling back to
`COMPLIANCE_THRESHOLDS[-1][1]` (the table is a non-empty literal, so the
Python negative index is total). -/
def evaluate (risk_score : Int) : String :=
  match COMPLIANCE_THRESHOLDS.find? (fun t => decide (t.1 < risk_score)) with
  | some t => t.2
  | none => ((COMPLIANCE_THRESHOLDS.getLast?).map (fun t => t.2)).getD ""

/-! ### Generic stable-sort vocabulary

Python's `list.sort` and `sorted` are stable sorts and so is `List.mergeSort`;
the lemmas below characterize a stable sort's output up to the equivalence
classes of its comparison, which is what the commutativity and tie-break
claims about the merge resolver rest on. -/

/-- Equivalence under a boolean comparison: both `le a b` and `le b a`. -/
def eqvB {α : Type} (le : α → α → Bool) (a b : α) : Bool := le a b && le b a

section StableSort

variable {α : Type} (le : α → α → Bool)

/-- The elements equivalent to a fixed `a` are pairwise `le`-related. -/
theorem pairwise_le_filter_eqv
    (htrans : ∀ a b c, le a b = true → le b c = true → le a c = true)
    (l : List α) (a : α) :
    (l.filter (eqvB le a)).Pairwise (fun x y => le x y = true) := by
  apply List.pairwise_of_forall_mem_list
  intro x hx y hy
  rw [List.mem_filter] at hx hy
  have hx2 := hx.2
  have hy2 := hy.2
  simp only [eqvB, Bool.and_eq_true] at hx2 hy2
  exact htrans _ _ _ hx2.2 hy2.1

/-- A stable sort preserves each equivalence class of its comparison as a
subsequence: filtering `mergeSort` by an equivalence class gives the same list
as filtering the input. -/
theorem mergeSort_filter_eqv
    (htrans : ∀ a b c, le a b = true → le b c = true → le a c = true)
    (htotal : ∀ a b, (le a b || le b a) = true)
    (l : List α) (a : α) :
    (l.mergeSort le).filter (eqvB le a) = l.filter (eqvB le a) := by
  have hsub : (l.filter (eqvB le a)).Sublist (l.mergeSort le) :=
    List.sublist_mergeSort htrans htotal
      (pairwise_le_filter_eqv le htrans l a) (List.filter_sublist l)
  have hself : (l.filter (eqvB le a)).filter (eqvB le a) = l.filter (eqvB le a) :=
    List.filter_eq_self.mpr (fun x hx => List.of_mem_filter hx)
  have hsub2 : (l.filter (eqvB le a)).Sublist ((l.mergeSort le).filter (eqvB le a)) := by
    have h := List.Sublist.filter (eqvB le a) hsub
    rwa [hself] at h
  have hperm : ((l.mergeSort le).filter (eqvB le a)).Perm (l.filter (eqvB le a)) :=
    (List.mergeSort_perm l le).filter (eqvB le a)
  exact (List.Sublist.eq_of_length hsub2 hperm.length_eq.symm).symm

/-- Two sorted lists whose equivalence classes agree (as lists, i.e. with
multiplicity and relative order) are equal. -/
theorem sorted_eq_of_filter_eqv
    (htrans : ∀ a b c, le a b = true → le b c = true → le a c = true)
    (htotal : ∀ a b, (le a b || le b a) = true) :
    ∀ (s₁ s₂ : List α), s₁.Pairwise (fun x y => le x y = true) →
      s₂.Pairwise (fun x y => le x y = true) →
      (∀ a, s₁.filter (eqvB le a) = s₂.filter (eqvB le a)) → s₁ = s₂ := by
  have hrefl : ∀ a, eqvB le a a = true := by
    intro a
    have h := htotal a a
    simp only [Bool.or_self] at h
    simp [eqvB, h]
  intro s₁
  induction s₁ with
  | nil =>
    intro s₂ _ _ hf
    cases s₂ with
    | nil => rfl
    | cons y t₂ =>
      exfalso
      have h := hf y
      rw [List.filter_nil, List.filter_cons_of_pos (hrefl y)] at h
      exact List.cons_ne_nil _ _ h.symm
  | cons x t₁ ih =>
    intro s₂ hs₁ hs₂ hf
    cases s₂ with
    | nil =>
      exfalso
      have h := hf x
      rw [List.filter_nil, List.filter_cons_of_pos (hrefl x)] at h
      exact List.cons_ne_nil _ _ h
    | cons y t₂ =>
      have hxy : x = y := by
        by_cases heq : eqvB le x y = true
        · have h := hf x
          rw [List.filter_cons_of_pos (hrefl x), List.filter_cons_of_pos heq] at h
          exact (List.cons_eq_cons.mp h).1
        · exfalso
          have h := hf x
          rw [List.filter_cons_of_pos (hrefl x), List.filter_cons_of_neg heq] at h
          have hx_t₂ : x ∈ t₂ :=
            (List.mem_filter.mp (h ▸ List.mem_cons_self x (List.filter (eqvB le x) t₁))).1
          have hyx : le y x = true := (List.pairwise_cons.mp hs₂).1 x hx_t₂
          have h2 := hf y
          rw [List.filter_cons_of_pos (hrefl y)] at h2
          by_cases hyxB : eqvB le y x = true
          · apply heq
            simp only [eqvB, Bool.and_eq_true] at hyxB ⊢
            exact ⟨hyxB.2, hyxB.1⟩
          · rw [List.filter_cons_of_neg hyxB] at h2
            have hy_t₁ : y ∈ t₁ :=
              (List.mem_filter.mp (h2 ▸ List.mem_cons_self y (List.filter (eqvB le y) t₂))).1
            have hxy2 : le x y = true := (List.pairwise_cons.mp hs₁).1 y hy_t₁
            apply heq
            simp only [eqvB, Bool.and_eq_true]
            exact ⟨hxy2, hyx⟩
      subst hxy
      have htails : ∀ a, t₁.filter (eqvB le a) = t₂.filter (eqvB le a) := by
        intro a
        have h := hf a
        by_cases hax : eqvB le a x = true
        · rw [List.filter_cons_of_pos hax, List.filter_cons_of_pos hax] at h
          exact (List.cons_eq_cons.mp h).2
        · rwa [List.filter_cons_of_neg hax, List.filter_cons_of_neg hax] at h
      exact congrArg (x :: ·)
        (ih t₂ (List.pairwise_cons.mp hs₁).2 (List.pairwise_cons.mp hs₂).2 htails)

/-- A stable sort is determined by the equivalence classes of the input: two
inputs with the same class lists sort to the same output. -/
theorem mergeSort_eq_of_filter_eqv
    (htrans : ∀ a b c, le a b = true → le b c = true → le a c = true)
    (htotal : ∀ a b, (le a b || le b a) = true)
    (l₁ l₂ : List α)
    (h : ∀ a, l₁.filter (eqvB le a) = l₂.filter (eqvB le a)) :
    l₁.mergeSort le = l₂.mergeSort le := by
  apply sorted_eq_of_filter_eqv le htrans htotal _ _
    (List.sorted_mergeSort htrans htotal l₁) (List.sorted_mergeSort htrans htotal l₂)
  intro a
  rw [mergeSort_filter_eqv le htrans htotal, mergeSort_filter_eqv le htrans htotal]
  exact h a

end StableSort

/-! ### Facts about the resolver's comparisons -/

theorem spanLE_trans :
    ∀ a b c : Span, spanLE a b = true → spanLE b c = true → spanLE a c = true := by
  intro a b c hab hbc
  simp only [spanLE, keyLE, decide_eq_true_eq] at *
  omega

theorem spanLE_total : ∀ a b : Span, (spanLE a b || spanLE b a) = true := by
  intro a b
  simp only [spanLE, keyLE, Bool.or_eq_true, decide_eq_true_eq]
  omega

theorem eqvB_spanLE_iff (a b : Span) :
    eqvB spanLE a b = true ↔ spanKey a = spanKey b := by
  simp only [eqvB, spanLE, keyLE, Bool.and_eq_true, decide_eq_true_eq, Prod.ext_iff]
  omega

theorem startLE_trans :
    ∀ a b c : Span, startLE a b = true → startLE b c = true → startLE a c = true := by
  intro a b c hab hbc
  simp only [startLE, decide_eq_true_eq] at *
  omega

theorem startLE_total : ∀ a b : Span, (startLE a b || startLE b a) = true := by
  intro a b
  simp only [startLE, Bool.or_eq_true, decide_eq_true_eq]
  omega

theorem startGE_trans :
    ∀ a b c : Span, startGE a b = true → startGE b c = true → startGE a c = true := by
  intro a b c hab hbc
  simp only [startGE, decide_eq_true_eq] at *
  omega

theorem startGE_total : ∀ a b : Span, (startGE a b || startGE b a) = true := by
  intro a b
  simp only [startGE, Bool.or_eq_true, decide_eq_true_eq]
  omega

/-- Overlap of ranges is symmetric. -/
theorem overlaps_symm {a b : Span} (h : overlaps a b) : overlaps b a := by
  unfold overlaps at *
  omega

/-! ### The greedy acceptance scan -/

/-- Nothing the greedy scan keeps overlaps a range that was occupied on entry. -/
theorem greedyKeep_no_overlap_occupied :
    ∀ (l : List Span) (occ : List (Nat × Nat)), ∀ e ∈ greedyKeep l occ,
      ∀ r ∈ occ, ¬ (e.start < r.2 ∧ e.endPos > r.1) := by
  intro l
  induction l with
  | nil => intro occ e he; simp [greedyKeep] at he
  | cons x xs ih =>
    intro occ e he r hr
    unfold greedyKeep at he
    split at he
    · exact ih occ e he r hr
    · rename_i hguard
      rcases List.mem_cons.mp he with rfl | he'
      · intro hcon
        apply hguard
        rw [List.any_eq_true]
        refine ⟨r, hr, ?_⟩
        simp only [Bool.and_eq_true, decide_eq_true_eq]
        exact hcon
      · exact ih _ e he' r (List.mem_append_left _ hr)

/-- The spans kept by the greedy scan are pairwise non-overlapping. -/
theorem greedyKeep_pairwise :
    ∀ (l : List Span) (occ : List (Nat × Nat)),
      (greedyKeep l occ).Pairwise (fun a b => ¬ overlaps a b) := by
  intro l
  induction l with
  | nil => intro occ; simp [greedyKeep]
  | cons x xs ih =>
    intro occ
    unfold greedyKeep
    split
    · exact ih occ
    · rw [List.pairwise_cons]
      refine ⟨?_, ih _⟩
      intro e he hov
      have h := greedyKeep_no_overlap_occupied xs (occ ++ [(x.start, x.endPos)]) e he
        (x.start, x.endPos) (by simp)
      exact h ⟨(overlaps_symm hov).1, (overlaps_symm hov).2⟩

/-- The greedy scan returns a sublist of its input. -/
theorem greedyKeep_sublist :
    ∀ (l : List Span) (occ : List (Nat × Nat)), (greedyKeep l occ).Sublist l := by
  intro l
  induction l with
  | nil => intro occ; simp [greedyKeep]
  | cons x xs ih =>
    intro occ
    unfold greedyKeep
    split
    · exact List.Sublist.cons x (ih occ)
    · exact List.Sublist.cons₂ x (ih _)

/-! ### The deduplication scan -/

/-- Deduplication returns a sublist of its input. -/
theorem dedupeSpans_sublist :
    ∀ (l : List Span) (seen : List (Nat × Nat × String)),
      (dedupeSpans l seen).Sublist l := by
  intro l
  induction l with
  | nil => intro seen; simp [dedupeSpans]
  | cons x xs ih =>
    intro seen
    unfold dedupeSpans
    split
    · exact List.Sublist.cons x (ih seen)
    · exact List.Sublist.cons₂ x (ih _)

/-- Deduplication is the identity when the `(start, end, label)` keys are
pairwise distinct and none is in `seen` already. -/
theorem dedupeSpans_eq_self :
    ∀ (l : List Span) (seen : List (Nat × Nat × String)),
      l.Pairwise (fun a b =>
        (a.start, a.endPos, a.label) ≠ (b.start, b.endPos, b.label)) →
      (∀ e ∈ l, (e.start, e.endPos, e.label) ∉ seen) →
      dedupeSpans l seen = l := by
  intro l
  induction l with
  | nil => intro seen _ _; simp [dedupeSpans]
  | cons x xs ih =>
    intro seen hp hseen
    unfold dedupeSpans
    rw [if_neg (hseen x (List.mem_cons_self x xs))]
    congr 1
    apply ih
    · exact (List.pairwise_cons.mp hp).2
    · intro e he hmem
      rcases List.mem_cons.mp hmem with heq | hmem'
      · exact (List.pairwise_cons.mp hp).1 e he heq.symm
      · exact hseen e (List.mem_cons_of_mem x he) hmem'

/-! ### Claim C1 -/

/-- Claim C1: for every input list of candidate spans (each with
`start < end`), any two entities returned by the merge resolver are
non-overlapping: `not (s1 < e2 and e1 > s2)`. -/
theorem resolve_overlaps_pairwise_non_overlapping (l : List Span)
    (h : ∀ e ∈ l, e.start < e.endPos) :
    (resolve_overlaps l).Pairwise
      (fun a b => ¬ (a.start < b.endPos ∧ a.endPos > b.start)) := by
  unfold resolve_overlaps
  split
  · simp
  · have hkept := greedyKeep_pairwise (sortSpans l) []
    have hded : (dedupeSpans (greedyKeep (sortSpans l) []) []).Pairwise
        (fun a b => ¬ overlaps a b) :=
      List.Pairwise.sublist (dedupeSpans_sublist _ _) hkept
    have hperm := List.mergeSort_perm (dedupeSpans (greedyKeep (sortSpans l) []) []) startLE
    have hsymm : ∀ {x y : Span}, ¬ overlaps x y → ¬ overlaps y x :=
      fun hno hov => hno (overlaps_symm hov)
    exact (hperm.pairwise_iff hsymm).mpr hded

/-- Witness for C1 at a concrete overlapping input. -/
theorem resolve_overlaps_pairwise_non_overlapping_witness :
    (∀ e ∈ [(⟨"a", "PERSON", "nlp", 0, 5⟩ : Span), ⟨"b", "EMAIL", "regex", 3, 9⟩],
        e.start < e.endPos) ∧
    (resolve_overlaps [⟨"a", "PERSON", "nlp", 0, 5⟩, ⟨"b", "EMAIL", "regex", 3, 9⟩]).Pairwise
      (fun a b => ¬ (a.start < b.endPos ∧ a.endPos > b.start)) :=
  ⟨by decide,
   resolve_overlaps_pairwise_non_overlapping
     [⟨"a", "PERSON", "nlp", 0, 5⟩, ⟨"b", "EMAIL", "regex", 3, 9⟩] (by decide)⟩

/-! ### Claim C4 -/

/-- Claim C4: for every input list of candidate spans, the list returned by the
merge resolver is sorted by `start` ascending. -/
theorem resolve_overlaps_sorted_by_start (l : List Span) :
    (resolve_overlaps l).Pairwise (fun a b => a.start ≤ b.start) := by
  unfold resolve_overlaps
  split
  · simp
  · have h := List.sorted_mergeSort startLE_trans startLE_total
      (dedupeSpans (greedyKeep (sortSpans l) []) [])
    exact h.imp (fun hab => by simpa [startLE] using hab)

/-! ### Claim C10 -/

/-- Claim C10: on candidate spans with `start < end`, the spans accepted by the
greedy scan already have pairwise distinct `(start, end)` ranges, so the
`(start, end, label)` deduplication step is a no-op: the resolver with the
dedup step removed returns the same list. -/
theorem dedup_step_noop (l : List Span)
    (h : ∀ e ∈ l, e.start < e.endPos) :
    (greedyKeep (sortSpans l) []).Pairwise
      (fun a b => (a.start, a.endPos) ≠ (b.start, b.endPos)) ∧
    resolve_overlaps l = resolve_overlaps_nodedup l := by
  have hmem : ∀ e ∈ greedyKeep (sortSpans l) [], e.start < e.endPos := by
    intro e he
    have h1 : e ∈ sortSpans l := List.Sublist.mem he (greedyKeep_sublist _ _)
    have h2 : e ∈ l := (List.mergeSort_perm l spanLE).mem_iff.mp h1
    exact h e h2
  have hdist : (greedyKeep (sortSpans l) []).Pairwise
      (fun a b => (a.start, a.endPos) ≠ (b.start, b.endPos)) := by
    apply List.Pairwise.imp_of_mem ?_ (greedyKeep_pairwise (sortSpans l) [])
    intro a b ha hb hno heq
    have h1 : a.start = b.start := congrArg Prod.fst heq
    have h2 : a.endPos = b.endPos := congrArg Prod.snd heq
    have ha' := hmem a ha
    have hb' := hmem b hb
    exact hno (by unfold overlaps; omega)
  refine ⟨hdist, ?_⟩
  unfold resolve_overlaps resolve_overlaps_nodedup
  by_cases hl : l.isEmpty
  · simp [hl]
  · simp only [hl, if_false]
    have hkeys : (greedyKeep (sortSpans l) []).Pairwise
        (fun a b => (a.start, a.endPos, a.label) ≠ (b.start, b.endPos, b.label)) := by
      apply hdist.imp
      intro a b hne heq
      apply hne
      have h1 : a.start = b.start := congrArg Prod.fst heq
      have h2 : a.endPos = b.endPos := congrArg (fun t => t.2.1) heq
      rw [Prod.ext_iff]
      exact ⟨h1, h2⟩
    rw [dedupeSpans_eq_self _ _ hkeys (by simp)]

/-- Witness for C10 at a concrete input with a duplicate candidate. -/
theorem dedup_step_noop_witness :
    (∀ e ∈ [(⟨"a", "EMAIL", "regex", 0, 5⟩ : Span), ⟨"a", "EMAIL", "regex", 0, 5⟩],
        e.start < e.endPos) ∧
    resolve_overlaps [(⟨"a", "EMAIL", "regex", 0, 5⟩ : Span), ⟨"a", "EMAIL", "regex", 0, 5⟩] =
      resolve_overlaps_nodedup
        [(⟨"a", "EMAIL", "regex", 0, 5⟩ : Span), ⟨"a", "EMAIL", "regex", 0, 5⟩] :=
  ⟨by decide,
   (dedup_step_noop [⟨"a", "EMAIL", "regex", 0, 5⟩, ⟨"a", "EMAIL", "regex", 0, 5⟩]
     (by decide)).2⟩

/-! ### Claim C5 -/

/-- A block none of whose spans shares `a`'s method priority contributes
nothing to `a`'s equivalence class under the resolver's sort key. -/
theorem filter_eqv_spanLE_eq_nil {x : List Span} {a : Span}
    (hx : ∀ e ∈ x, method_priority e.detection_method ≠
      method_priority a.detection_method) :
    x.filter (eqvB spanLE a) = [] := by
  rw [List.filter_eq_nil_iff]
  intro e he hcon
  have hkey : spanKey a = spanKey e := (eqvB_spanLE_iff a e).mp hcon
  have hmp : method_priority a.detection_method = method_priority e.detection_method :=
    congrArg Prod.fst hkey
  exact hx e he hmp.symm

/-- The resolver gives equal outputs on inputs of equal length whose stable
sorts agree. -/
theorem resolve_overlaps_congr {l₁ l₂ : List Span}
    (hlen : l₁.length = l₂.length) (hsort : sortSpans l₁ = sortSpans l₂) :
    resolve_overlaps l₁ = resolve_overlaps l₂ := by
  unfold resolve_overlaps
  have hempty : l₁.isEmpty = l₂.isEmpty := by
    cases l₁ <;> cases l₂ <;> simp_all
  rw [hempty, hsort]

/-- Claim C5: the merge resolver is commutative over the input order of the
three detectors: when the `p` spans all carry the pattern method (code value
`"regex"`), the `r` spans the rule method, and the `n` spans the contextual
method (code value `"nlp"`), every concatenation order of the three lists
resolves to the same canonical entity list. -/
theorem resolve_overlaps_commutative_over_detectors (p r n : List Span)
    (hp : ∀ e ∈ p, e.detection_method = "regex")
    (hr : ∀ e ∈ r, e.detection_method = "rule")
    (hn : ∀ e ∈ n, e.detection_method = "nlp") :
    resolve_overlaps (p ++ r ++ n) = resolve_overlaps (p ++ n ++ r) ∧
    resolve_overlaps (p ++ r ++ n) = resolve_overlaps (r ++ p ++ n) ∧
    resolve_overlaps (p ++ r ++ n) = resolve_overlaps (r ++ n ++ p) ∧
    resolve_overlaps (p ++ r ++ n) = resolve_overlaps (n ++ p ++ r) ∧
    resolve_overlaps (p ++ r ++ n) = resolve_overlaps (n ++ r ++ p) := by
  have hp' : ∀ e ∈ p, method_priority e.detection_method = 0 := by
    intro e he; rw [hp e he]; rfl
  have hr' : ∀ e ∈ r, method_priority e.detection_method = 1 := by
    intro e he; rw [hr e he]; rfl
  have hn' : ∀ e ∈ n, method_priority e.detection_method = 2 := by
    intro e he; rw [hn e he]; rfl
  have hcases : ∀ a : Span,
      (r.filter (eqvB spanLE a) = [] ∧ n.filter (eqvB spanLE a) = []) ∨
      (p.filter (eqvB spanLE a) = [] ∧ n.filter (eqvB spanLE a) = []) ∨
      (p.filter (eqvB spanLE a) = [] ∧ r.filter (eqvB spanLE a) = []) := by
    intro a
    by_cases h0 : method_priority a.detection_method = 0
    · exact Or.inl ⟨filter_eqv_spanLE_eq_nil (fun e he => by rw [hr' e he, h0]; omega),
        filter_eqv_spanLE_eq_nil (fun e he => by rw [hn' e he, h0]; omega)⟩
    · by_cases h1 : method_priority a.detection_method = 1
      · exact Or.inr (Or.inl
          ⟨filter_eqv_spanLE_eq_nil (fun e he => by rw [hp' e he, h1]; omega),
           filter_eqv_spanLE_eq_nil (fun e he => by rw [hn' e he, h1]; omega)⟩)
      · by_cases h2 : method_priority a.detection_method = 2
        · exact Or.inr (Or.inr
            ⟨filter_eqv_spanLE_eq_nil (fun e he => by rw [hp' e he, h2]; omega),
             filter_eqv_spanLE_eq_nil (fun e he => by rw [hr' e he, h2]; omega)⟩)
        · exact Or.inl
            ⟨filter_eqv_spanLE_eq_nil (fun e he => by rw [hr' e he]; omega),
             filter_eqv_spanLE_eq_nil (fun e he => by rw [hn' e he]; omega)⟩
  have hmain : ∀ l₂ : List Span,
      (p ++ r ++ n).length = l₂.length →
      (∀ a, (p ++ r ++ n).filter (eqvB spanLE a) = l₂.filter (eqvB spanLE a)) →
      resolve_overlaps (p ++ r ++ n) = resolve_overlaps l₂ := by
    intro l₂ hlen hfil
    exact resolve_overlaps_congr hlen
      (mergeSort_eq_of_filter_eqv spanLE spanLE_trans spanLE_total _ _ hfil)
  refine ⟨?_, ?_, ?_, ?_, ?_⟩ <;>
    apply hmain <;>
    first
      | (simp [List.length_append]; omega)
      | (intro a
         rcases hcases a with ⟨h1, h2⟩ | ⟨h1, h2⟩ | ⟨h1, h2⟩ <;>
           simp [List.filter_append, h1, h2])

/-- Witness for C5 at concrete one-span detector outputs. -/
theorem resolve_overlaps_commutative_over_detectors_witness :
    (∀ e ∈ [(⟨"c", "CREDIT_CARD", "regex", 10, 29⟩ : Span)], e.detection_method = "regex") ∧
    (∀ e ∈ [(⟨"x", "PERSON", "rule", 0, 4⟩ : Span)], e.detection_method = "rule") ∧
    (∀ e ∈ [(⟨"y", "PERSON", "nlp", 12, 16⟩ : Span)], e.detection_method = "nlp") ∧
    resolve_overlaps ([(⟨"c", "CREDIT_CARD", "regex", 10, 29⟩ : Span)] ++
        [⟨"x", "PERSON", "rule", 0, 4⟩] ++ [⟨"y", "PERSON", "nlp", 12, 16⟩]) =
      resolve_overlaps ([(⟨"y", "PERSON", "nlp", 12, 16⟩ : Span)] ++
        [⟨"x", "PERSON", "rule", 0, 4⟩] ++ [⟨"c", "CREDIT_CARD", "regex", 10, 29⟩]) :=
  ⟨by decide, by decide, by decide,
   (resolve_overlaps_commutative_over_detectors
     [⟨"c", "CREDIT_CARD", "regex", 10, 29⟩] [⟨"x", "PERSON", "rule", 0, 4⟩]
     [⟨"y", "PERSON", "nlp", 12, 16⟩] (by decide) (by decide) (by decide)).2.2.2.2⟩

/-! ### Claim C3 -/

unseal List.merge List.mergeSort in
/-- Counterexample to C3 as stated: the resolver's sort key is not just
`(method_priority, label_priority)` — two spans agreeing on method and label
(hence on both claimed keys) do not keep their input order; the code's
additional `start` component reorders them, observably changing the resolver's
output on an overlapping pair. -/
theorem resolver_sort_key_counterexample :
    (⟨"a", "CREDIT_CARD", "regex", 2, 4⟩ : Span).detection_method =
      (⟨"b", "CREDIT_CARD", "regex", 1, 3⟩ : Span).detection_method ∧
    (⟨"a", "CREDIT_CARD", "regex", 2, 4⟩ : Span).label =
      (⟨"b", "CREDIT_CARD", "regex", 1, 3⟩ : Span).label ∧
    sortSpans [⟨"a", "CREDIT_CARD", "regex", 2, 4⟩, ⟨"b", "CREDIT_CARD", "regex", 1, 3⟩] =
      [⟨"b", "CREDIT_CARD", "regex", 1, 3⟩, ⟨"a", "CREDIT_CARD", "regex", 2, 4⟩] ∧
    resolve_overlaps
        [⟨"a", "CREDIT_CARD", "regex", 2, 4⟩, ⟨"b", "CREDIT_CARD", "regex", 1, 3⟩] =
      [⟨"b", "CREDIT_CARD", "regex", 1, 3⟩] := by
  decide

/-- Claim C3 as amended: the merge resolver orders candidate spans by a stable
sort on the key `(method_priority, label_priority, start)` ascending (method
priority `regex`/pattern = 0, `rule` = 1, `nlp`/contextual = 2; label priority
from the pattern-table declaration order, absent labels lowest); only spans
equal on all three keys keep their relative input order. -/
theorem resolver_sort_amended :
    (∀ l : List Span, (sortSpans l).Perm l) ∧
    (∀ l : List Span, (sortSpans l).Pairwise (fun a b => keyLE (spanKey a) (spanKey b))) ∧
    (∀ (l : List Span) (a b : Span), spanKey a = spanKey b →
      List.Sublist [a, b] l → List.Sublist [a, b] (sortSpans l)) := by
  refine ⟨fun l => List.mergeSort_perm l spanLE, fun l => ?_, fun l a b hk hsub => ?_⟩
  · exact (List.sorted_mergeSort spanLE_trans spanLE_total l).imp
      (fun h => by simpa [spanLE] using h)
  · have hle : spanLE a b = true := by
      have hk2 : keyLE (spanKey a) (spanKey b) := by
        rw [hk]; unfold keyLE; omega
      simpa [spanLE] using hk2
    apply List.sublist_mergeSort spanLE_trans spanLE_total ?_ hsub
    rw [List.pairwise_cons]
    exact ⟨fun b' hb' => by rw [List.mem_singleton.mp hb']; exact hle,
      List.pairwise_singleton _ _⟩

/-- Witness for the amended C3: two spans sharing all three key components
keep their input order through the resolver's sort. -/
theorem resolver_sort_amended_witness :
    spanKey ⟨"a", "CREDIT_CARD", "regex", 2, 4⟩ =
      spanKey ⟨"a2", "CREDIT_CARD", "regex", 2, 9⟩ ∧
    List.Sublist
      [(⟨"a", "CREDIT_CARD", "regex", 2, 4⟩ : Span), ⟨"a2", "CREDIT_CARD", "regex", 2, 9⟩]
      (sortSpans [⟨"a", "CREDIT_CARD", "regex", 2, 4⟩, ⟨"a2", "CREDIT_CARD", "regex", 2, 9⟩,
        ⟨"p", "PERSON", "nlp", 0, 1⟩]) :=
  ⟨by decide,
   resolver_sort_amended.2.2
     [⟨"a", "CREDIT_CARD", "regex", 2, 4⟩, ⟨"a2", "CREDIT_CARD", "regex", 2, 9⟩,
       ⟨"p", "PERSON", "nlp", 0, 1⟩]
     ⟨"a", "CREDIT_CARD", "regex", 2, 4⟩ ⟨"a2", "CREDIT_CARD", "regex", 2, 9⟩
     (by decide) (by decide)⟩

/-! ### Claim C2 -/

/-- Splicing from `pos` over spans that all start at or after `q` first copies
the original text between `pos` and `q` unchanged. -/
theorem spliceFrom_shift (text : List Char) (es : List Span) (pos q : Nat)
    (hpq : pos ≤ q) (hq : ∀ e ∈ es, q ≤ e.start) :
    spliceFrom text pos es = (text.drop pos).take (q - pos) ++ spliceFrom text q es := by
  cases es with
  | nil =>
    simp only [spliceFrom]
    have h1 : text.drop q = (text.drop pos).drop (q - pos) := by
      rw [List.drop_drop]
      congr 1
      omega
    rw [h1, List.take_append_drop]
  | cons e rest =>
    have hqe : q ≤ e.start := hq e (List.mem_cons_self e rest)
    have hsplit : (text.drop pos).take (e.start - pos) =
        (text.drop pos).take (q - pos) ++ (text.drop q).take (e.start - q) := by
      have h2 : e.start - pos = (q - pos) + (e.start - q) := by omega
      have h3 : pos + (q - pos) = q := by omega
      rw [h2, List.take_add, List.drop_drop, h3]
    simp only [spliceFrom]
    rw [hsplit]
    simp [List.append_assoc]

/-- Folding the slice-replacement over a disjoint, in-range span list given in
descending document order produces the spliced text. -/
theorem foldl_applyRedaction_eq_spliceFrom (text : List Char) :
    ∀ asc : List Span,
      (∀ e ∈ asc, e.start < e.endPos ∧ e.endPos ≤ text.length) →
      asc.Pairwise (fun a b => a.endPos ≤ b.start) →
      asc.reverse.foldl applyRedaction text = spliceFrom text 0 asc := by
  intro asc
  induction asc with
  | nil => intro _ _; simp [spliceFrom]
  | cons e rest ih =>
    intro hb hp
    rw [List.reverse_cons, List.foldl_append]
    rw [ih (fun x hx => hb x (List.mem_cons_of_mem e hx)) (List.pairwise_cons.mp hp).2]
    have hq : ∀ x ∈ rest, e.endPos ≤ x.start := (List.pairwise_cons.mp hp).1
    have hsh := spliceFrom_shift text rest 0 e.endPos (Nat.zero_le _) hq
    have hee := hb e (List.mem_cons_self e rest)
    have hlen : (List.take e.endPos text).length = e.endPos := by
      rw [List.length_take]
      exact Nat.min_eq_left hee.2
    show applyRedaction (spliceFrom text 0 rest) e = spliceFrom text 0 (e :: rest)
    rw [hsh]
    simp only [List.drop_zero, Nat.sub_zero]
    unfold applyRedaction
    have h1 : (List.take e.endPos text ++ spliceFrom text e.endPos rest).take e.start =
        List.take e.start text := by
      rw [List.take_append_of_le_length (by rw [hlen]; omega), List.take_take]
      congr 1
      omega
    have h2 : (List.take e.endPos text ++ spliceFrom text e.endPos rest).drop e.endPos =
        spliceFrom text e.endPos rest := List.drop_left' hlen
    rw [h1, h2]
    simp [spliceFrom]

/-- Non-overlapping spans with `start < end` have pairwise distinct starts. -/
theorem pairwise_start_ne {es : List Span}
    (hb : ∀ e ∈ es, e.start < e.endPos)
    (hov : es.Pairwise (fun a b => ¬ overlaps a b)) :
    es.Pairwise (fun a b => a.start ≠ b.start) := by
  apply List.Pairwise.imp_of_mem ?_ hov
  intro a b ha hbm hno heq
  have h1 := hb a ha
  have h2 := hb b hbm
  exact hno (by unfold overlaps; omega)

theorem pairwise_lt_of_le_ne {l : List Span}
    (hle : l.Pairwise (fun a b => a.start ≤ b.start))
    (hne : l.Pairwise (fun a b => a.start ≠ b.start)) :
    l.Pairwise (fun a b => a.start < b.start) :=
  (hle.and hne).imp (fun h => lt_of_le_of_ne h.1 h.2)

/-- Two permuted lists that are both strictly sorted by `start` coincide. -/
theorem eq_of_perm_of_pairwise_lt {l₁ l₂ : List Span}
    (hperm : l₁.Perm l₂)
    (h₁ : l₁.Pairwise (fun a b => a.start < b.start))
    (h₂ : l₂.Pairwise (fun a b => a.start < b.start)) : l₁ = l₂ := by
  haveI : IsAntisymm Span (fun a b => a.start < b.start) :=
    ⟨fun a b hab hba => absurd hba (by omega)⟩
  exact List.eq_of_perm_of_sorted hperm h₁ h₂

/-- Sorting spans with pairwise distinct starts by `start` ascending is
strictly monotone. -/
theorem mergeSort_startLE_strict (es : List Span)
    (hne : es.Pairwise (fun a b => a.start ≠ b.start)) :
    (es.mergeSort startLE).Pairwise (fun a b => a.start < b.start) := by
  have hle : (es.mergeSort startLE).Pairwise (fun a b => a.start ≤ b.start) :=
    (List.sorted_mergeSort startLE_trans startLE_total es).imp
      (fun h => by simpa [startLE] using h)
  have hne2 : (es.mergeSort startLE).Pairwise (fun a b => a.start ≠ b.start) :=
    ((List.mergeSort_perm es startLE).pairwise_iff (fun h => Ne.symm h)).mpr hne
  exact pairwise_lt_of_le_ne hle hne2

/-- The redaction fold equals the splice description along the ascending
document order of the entities. -/
theorem redact_eq_spliceFrom (text : List Char) (es : List Span)
    (hb : ∀ e ∈ es, e.start < e.endPos ∧ e.endPos ≤ text.length)
    (hov : es.Pairwise (fun a b => ¬ overlaps a b)) :
    redact text es = spliceFrom text 0 (es.mergeSort startLE) := by
  have hdperm : (es.mergeSort startGE).Perm es := List.mergeSort_perm es startGE
  have hb' : ∀ e ∈ es.mergeSort startGE, e.start < e.endPos ∧ e.endPos ≤ text.length :=
    fun e he => hb e (hdperm.mem_iff.mp he)
  have hovsym : ∀ {x y : Span}, ¬ overlaps x y → ¬ overlaps y x :=
    fun h hov2 => h (overlaps_symm hov2)
  have hovd : (es.mergeSort startGE).Pairwise (fun a b => ¬ overlaps a b) :=
    (hdperm.pairwise_iff hovsym).mpr hov
  have hnes : es.Pairwise (fun a b => a.start ≠ b.start) :=
    pairwise_start_ne (fun e he => (hb e he).1) hov
  have hned : (es.mergeSort startGE).Pairwise (fun a b => a.start ≠ b.start) :=
    (hdperm.pairwise_iff (fun h => Ne.symm h)).mpr hnes
  have hdesc : (es.mergeSort startGE).Pairwise (fun a b => b.start ≤ a.start) :=
    (List.sorted_mergeSort startGE_trans startGE_total es).imp
      (fun h => by simpa [startGE] using h)
  have hdisj : (es.mergeSort startGE).Pairwise (fun a b => b.endPos ≤ a.start) := by
    apply List.Pairwise.imp_of_mem ?_ ((hdesc.and hovd).and hned)
    intro a b ha hbm h
    have h1 := hb' a ha
    have h2 := hb' b hbm
    rcases h with ⟨⟨hle, hno⟩, hne⟩
    unfold overlaps at hno
    omega
  have hascb : ∀ e ∈ (es.mergeSort startGE).reverse,
      e.start < e.endPos ∧ e.endPos ≤ text.length :=
    fun e he => hb' e (List.mem_reverse.mp he)
  have hascp : ((es.mergeSort startGE).reverse).Pairwise (fun a b => a.endPos ≤ b.start) :=
    List.pairwise_reverse.mpr hdisj
  have hmain := foldl_applyRedaction_eq_spliceFrom text
    ((es.mergeSort startGE).reverse) hascb hascp
  rw [List.reverse_reverse] at hmain
  unfold redact
  rw [hmain]
  congr 1
  apply eq_of_perm_of_pairwise_lt
  · exact ((List.reverse_perm _).trans hdperm).trans (List.mergeSort_perm es startLE).symm
  · have hlerev : ((es.mergeSort startGE).reverse).Pairwise (fun a b => a.start ≤ b.start) :=
      List.pairwise_reverse.mpr hdesc
    exact pairwise_lt_of_le_ne hlerev
      (List.pairwise_reverse.mpr (hned.imp (fun h => Ne.symm h)))
  · exact mergeSort_startLE_strict es hnes

/-- Claim C2: for in-range, mutually non-overlapping entities, `redact`
returns the text with each entity's `[start, end)` substring replaced by
`"[" + label + "]"` and every character outside the entity ranges unchanged
(the splice of the text along the entities in ascending document order), and
the processing order does not affect the result: any permutation of the entity
list redacts identically. -/
theorem redact_correct (text : List Char) (es : List Span)
    (hb : ∀ e ∈ es, e.start < e.endPos ∧ e.endPos ≤ text.length)
    (hov : es.Pairwise (fun a b => ¬ overlaps a b)) :
    redact text es = spliceFrom text 0 (es.mergeSort startLE) ∧
    ∀ es₂ : List Span, es₂.Perm es → redact text es₂ = redact text es := by
  refine ⟨redact_eq_spliceFrom text es hb hov, ?_⟩
  intro es₂ hperm
  have hovsym : ∀ {x y : Span}, ¬ overlaps x y → ¬ overlaps y x :=
    fun h hov2 => h (overlaps_symm hov2)
  have hb₂ : ∀ e ∈ es₂, e.start < e.endPos ∧ e.endPos ≤ text.length :=
    fun e he => hb e (hperm.mem_iff.mp he)
  have hov₂ : es₂.Pairwise (fun a b => ¬ overlaps a b) :=
    (hperm.pairwise_iff hovsym).mpr hov
  rw [redact_eq_spliceFrom text es₂ hb₂ hov₂, redact_eq_spliceFrom text es hb hov]
  congr 1
  apply eq_of_perm_of_pairwise_lt
  · exact (List.mergeSort_perm es₂ startLE).trans
      (hperm.trans (List.mergeSort_perm es startLE).symm)
  · exact mergeSort_startLE_strict es₂
      ((hperm.pairwise_iff (fun h => Ne.symm h)).mpr
        (pairwise_start_ne (fun e he => (hb e he).1) hov))
  · exact mergeSort_startLE_strict es
      (pairwise_start_ne (fun e he => (hb e he).1) hov)

unseal List.merge List.mergeSort in
/-- Witness for C2 on the spec's own example text. -/
theorem redact_correct_witness :
    (∀ e ∈ [(⟨"Alice", "PERSON", "rule", 11, 16⟩ : Span)],
        e.start < e.endPos ∧ e.endPos ≤ ("My name is Alice".toList).length) ∧
    redact ("My name is Alice".toList) [⟨"Alice", "PERSON", "rule", 11, 16⟩] =
      spliceFrom ("My name is Alice".toList) 0
        ([(⟨"Alice", "PERSON", "rule", 11, 16⟩ : Span)].mergeSort startLE) :=
  ⟨by decide,
   (redact_correct ("My name is Alice".toList) [⟨"Alice", "PERSON", "rule", 11, 16⟩]
     (by decide) (by simp)).1⟩

/-! ### Claim C6 -/

/-- Claim C6: every span the pattern detector emits satisfies its label's
digit-count validation — 16 digits for CREDIT_CARD, 12 for AADHAAR, and for
PHONE 10 digits after the country-code normalization; failing matches are
dropped (the detector is total, so it never raises). -/
theorem pattern_detector_validates (ms : List (String × List RegexMatch)) :
    ∀ e ∈ detect_regex_from ms,
      (e.label = "CREDIT_CARD" → (digitsOf e.value).length = 16) ∧
      (e.label = "AADHAAR" → (digitsOf e.value).length = 12) ∧
      (e.label = "PHONE" → (phoneDigits e.value).length = 10) := by
  intro e he
  simp only [detect_regex_from, List.mem_flatMap, List.mem_filterMap] at he
  obtain ⟨lm, _, m, _, hm⟩ := he
  simp only [validRegexSpan?] at hm
  split_ifs at hm with h1 h2 h3 h4
  all_goals (injection hm with h; subst h; dsimp only)
  · refine ⟨fun hcc => ?_, fun haa => ?_, fun _ => by omega⟩
    · rw [h3] at hcc; exact absurd hcc (by decide)
    · rw [h3] at haa; exact absurd haa (by decide)
  · push_neg at h1 h2
    exact ⟨fun hcc => h1 hcc, fun haa => h2 haa, fun hph => absurd hph h3⟩

/-- Witness for C6 on a concrete valid credit-card match. -/
theorem pattern_detector_validates_witness :
    ((⟨"4111-1111-1111-1111", "CREDIT_CARD", "regex", 0, 19⟩ : Span) ∈
      detect_regex_from [("CREDIT_CARD", [⟨"4111-1111-1111-1111", 0, 19⟩])]) ∧
    (digitsOf "4111-1111-1111-1111").length = 16 :=
  ⟨by decide,
   (pattern_detector_validates [("CREDIT_CARD", [⟨"4111-1111-1111-1111", 0, 19⟩])]
     ⟨"4111-1111-1111-1111", "CREDIT_CARD", "regex", 0, 19⟩ (by decide)).1 rfl⟩

/-! ### Claim C7 -/

/-- Counterexample to C7 as stated: at `risk = 0` (which is `≥ 0`) the scan of
the threshold table matches no entry — in particular not the final entry with
bound 0, since `0 > 0` fails — and the returned status comes from the explicit
fallback line instead. -/
theorem compliance_scan_counterexample :
    (0 : Int) ≥ 0 ∧
    COMPLIANCE_THRESHOLDS.find? (fun t => decide (t.1 < (0 : Int))) = none ∧
    evaluate 0 = "SAFE FOR PUBLIC RELEASE" := by
  refine ⟨le_refl 0, by decide, by decide⟩

/-- Claim C7 as amended: the evaluator scans the table in declared order and
returns the status of the first entry whose bound is strictly below the risk;
the final bound-0 entry matches whenever `risk > 0`, while at `risk = 0` the
scan matches nothing and the explicit fallback returns that same final
status — so the returned status is the first-match status for every positive
risk and the final entry's status at zero. -/
theorem compliance_evaluate_amended (risk : Int) (h : 0 ≤ risk) :
    evaluate risk =
      (if 80 < risk then "CRITICAL - NOT SAFE"
       else if 50 < risk then "HIGH RISK - REVIEW REQUIRED"
       else if 25 < risk then "MODERATE RISK - REVIEW"
       else "SAFE FOR PUBLIC RELEASE") ∧
    (0 < risk → (COMPLIANCE_THRESHOLDS.find? (fun t => decide (t.1 < risk))).isSome = true) ∧
    (risk = 0 → COMPLIANCE_THRESHOLDS.find? (fun t => decide (t.1 < risk)) = none) := by
  by_cases h80 : (80 : Int) < risk
  · have : (50 : Int) < risk := by omega
    have : (25 : Int) < risk := by omega
    refine ⟨?_, fun _ => ?_, fun h0 => by omega⟩ <;>
      simp [evaluate, COMPLIANCE_THRESHOLDS, List.find?, h80]
  · by_cases h50 : (50 : Int) < risk
    · refine ⟨?_, fun _ => ?_, fun h0 => by omega⟩ <;>
        simp [evaluate, COMPLIANCE_THRESHOLDS, List.find?, h80, h50]
    · by_cases h25 : (25 : Int) < risk
      · refine ⟨?_, fun _ => ?_, fun h0 => by omega⟩ <;>
          simp [evaluate, COMPLIANCE_THRESHOLDS, List.find?, h80, h50, h25]
      · by_cases h0 : (0 : Int) < risk
        · refine ⟨?_, fun _ => ?_, fun hz => by omega⟩ <;>
            simp [evaluate, COMPLIANCE_THRESHOLDS, List.find?, h80, h50, h25, h0]
        · have hz : risk = 0 := by omega
          subst hz
          refine ⟨by decide, fun hc => by omega, fun _ => by decide⟩

/-- Witness for the amended C7 at `risk = 8` (the spec's worked example). -/
theorem compliance_evaluate_amended_witness :
    (0 : Int) ≤ 8 ∧ evaluate 8 = "SAFE FOR PUBLIC RELEASE" ∧
    (COMPLIANCE_THRESHOLDS.find? (fun t => decide (t.1 < (8 : Int)))).isSome = true := by
  have h := compliance_evaluate_amended 8 (by decide)
  refine ⟨by decide, ?_, h.2.1 (by decide)⟩
  have h1 := h.1
  norm_num at h1
  exact h1

/-! ### Claim C8 -/

/-- Splitting a weighted sum at one value: the part equal to `a` contributes
`w a` per occurrence, the rest is the sum over the filtered list. -/
theorem sum_map_split (w : String → Int) (a : String) :
    ∀ t : List String, ((t.map w).sum : Int) =
      w a * (t.count a : Int) + ((t.filter (fun x => !(x == a))).map w).sum := by
  intro t
  induction t with
  | nil => simp
  | cons b t ih =>
    by_cases hba : b = a
    · subst hba
      simp only [List.map_cons, List.sum_cons, List.count_cons, List.filter_cons,
        BEq.refl, Bool.not_true, if_pos rfl, reduceIte]
      rw [ih]
      push_cast
      ring
    · have hbeq : (b == a) = false := beq_eq_false_iff_ne.mpr hba
      simp only [List.map_cons, List.sum_cons, List.count_cons, List.filter_cons, hbeq,
        Bool.not_false, if_true, Bool.false_eq_true, if_false, Nat.add_zero]
      rw [ih]
      ring

/-- Every distinct label comes from the underlying list. -/
theorem mem_distinctLabels (x : String) :
    ∀ ls : List String, x ∈ distinctLabels ls → x ∈ ls := by
  intro ls
  induction ls using distinctLabels.induct with
  | case1 => intro hx; simp [distinctLabels] at hx
  | case2 a t ih =>
    intro hx
    simp only [distinctLabels] at hx
    rcases List.mem_cons.mp hx with rfl | hx'
    · exact List.mem_cons_self _ _
    · exact List.mem_cons_of_mem a (List.mem_of_mem_filter (ih hx'))

/-- The Counter-style sum over distinct labels with multiplicities equals the
plain per-element sum. -/
theorem counterItems_sum (w : String → Int) :
    ∀ ls : List String,
      ((counterItems ls).map (fun p => w p.1 * (p.2 : Int))).sum = (ls.map w).sum := by
  intro ls
  induction ls using distinctLabels.induct with
  | case1 => simp [counterItems, distinctLabels]
  | case2 a t ih =>
    have hmap : (distinctLabels (t.filter (fun x => !(x == a)))).map
        (fun l => (l, (a :: t).count l)) =
        counterItems (t.filter (fun x => !(x == a))) := by
      unfold counterItems
      apply List.map_congr_left
      intro l hl
      have hlf : l ∈ t.filter (fun x => !(x == a)) := mem_distinctLabels l _ hl
      have hlne : l ≠ a := by
        have h2 := (List.mem_filter.mp hlf).2
        simpa using h2
      have hcf : List.count l (t.filter (fun x => !(x == a))) = List.count l t :=
        List.count_filter (by simp [hlne])
      have hcc : List.count l (a :: t) = List.count l t := by
        rw [List.count_cons, if_neg (by simp [Ne.symm hlne]), Nat.add_zero]
      rw [hcc, hcf]
    simp only [counterItems, distinctLabels, List.map_cons, List.sum_cons]
    rw [hmap, ih, sum_map_split w a t, List.count_cons, if_pos (by simp)]
    push_cast
    ring

/-- Claim C8: the risk score is the weighted count sum over the distinct labels
present (equivalently, the sum of each entity's label weight, weight 0 for
unmapped labels), the safety score is `max 0 (100 - risk)` with no upper clamp
on the risk, and the empty entity list scores safety 100. -/
theorem risk_and_safety_scores :
    (∀ es : List Span, compute_risk_score es = (es.map (fun e => weightOf e.label)).sum) ∧
    (∀ r : Int, compute_safety_score r = max 0 (100 - r)) ∧
    compute_safety_score (compute_risk_score []) = 100 := by
  refine ⟨fun es => ?_, fun r => rfl, ?_⟩
  · unfold compute_risk_score
    rw [counterItems_sum weightOf (es.map (fun e => e.label))]
    rw [List.map_map]
    rfl
  · simp [compute_risk_score, counterItems, distinctLabels, compute_safety_score]

/-! ### Claim C9 -/

/-- Counterexample to C9 as stated: the code-level `detection_method` values
are `"regex"`, `"rule"`, `"nlp"`; the pattern and contextual detectors do not
emit the literal strings `"pattern"` and `"contextual"`. -/
theorem detection_method_value_counterexample :
    detect_regex_from [("EMAIL", [⟨"a@b.co", 0, 6⟩])] =
      [⟨"a@b.co", "EMAIL", "regex", 0, 6⟩] ∧
    ("regex" ≠ "pattern" ∧ "regex" ≠ "rule" ∧ "regex" ≠ "contextual") ∧
    detect_nlp_from [] [⟨"GPE", "Delhi", 0, 5, []⟩] =
      [⟨"Delhi", "GPE", "nlp", 0, 5⟩] ∧
    ("nlp" ≠ "pattern" ∧ "nlp" ≠ "rule" ∧ "nlp" ≠ "contextual") := by
  decide

/-- Claim C9 as amended: every candidate span any of the three detectors emits
carries a `detection_method` in the closed three-value set — the code strings
`"regex"`, `"rule"`, `"nlp"`, which the spec names pattern, rule and
contextual respectively: the pattern detector always emits `"regex"`, the
rule-based name extractor `"rule"`, and the contextual (NLP) detector
`"nlp"`. -/
theorem detection_method_values :
    (∀ ms, ∀ e ∈ detect_regex_from ms, e.detection_method = "regex") ∧
    (∀ (text : List Char) (introEnds : List Nat) (wm : Nat → List WordMatch)
      (mw : Nat), ∀ e ∈ extract_names_from_pattern text introEnds wm mw,
        e.detection_method = "rule") ∧
    (∀ (text : List Char) (ents : List NlpEnt), ∀ e ∈ detect_nlp_from text ents,
      e.detection_method = "nlp") := by
  refine ⟨?_, ?_, ?_⟩
  · intro ms e he
    simp only [detect_regex_from, List.mem_flatMap, List.mem_filterMap] at he
    obtain ⟨lm, _, m, _, hm⟩ := he
    simp only [validRegexSpan?] at hm
    split_ifs at hm
    all_goals (injection hm with h; subst h; rfl)
  · intro text introEnds wm mw e he
    simp only [extract_names_from_pattern, List.mem_filterMap] at he
    obtain ⟨i, _, hm⟩ := he
    split at hm
    · split_ifs at hm
      injection hm with h
      subst h
      rfl
    · exact Option.noConfusion hm
  · intro text ents e he
    simp only [detect_nlp_from, List.mem_filterMap] at he
    obtain ⟨ent, _, hm⟩ := he
    split_ifs at hm
    · split at hm
      · split_ifs at hm
        injection hm with h
        subst h
        rfl
      · exact Option.noConfusion hm
    · injection hm with h
      subst h
      rfl

/-- Witness for the amended C9 at a concrete pattern-detector output. -/
theorem detection_method_values_witness :
    ((⟨"a@b.co", "EMAIL", "regex", 0, 6⟩ : Span) ∈
      detect_regex_from [("EMAIL", [⟨"a@b.co", 0, 6⟩])]) ∧
    (⟨"a@b.co", "EMAIL", "regex", 0, 6⟩ : Span).detection_method = "regex" :=
  ⟨by decide,
   detection_method_values.1 [("EMAIL", [⟨"a@b.co", 0, 6⟩])]
     ⟨"a@b.co", "EMAIL", "regex", 0, 6⟩ (by decide)⟩

end Ciphermask
